import Mathlib

/-!
Verification of the multi-buffer search engine of the Edita text editor.

The JavaScript source (`script.js`) is shallowly embedded here: strings are
`List Char`, the DOM-independent cores of `findInText`, `findInTextReverse`,
`countInText`, `searchInAllFiles`, `replaceOne`, `replaceAll` and `findNext`
become pure Lean functions.  JavaScript `String.prototype.indexOf`,
`lastIndexOf`, `substring`, `split`, `includes` and the literal-pattern
regexes built by the source (global literal match, `\b…\b` word boundaries)
are modelled by explicit executable definitions.  Recursions of the source
that are bounded only by scan progress (and that diverge in JS for an empty
pattern) carry an explicit fuel parameter; fuel sufficiency for non-empty
patterns is proved.
-/

/-- Word character in the sense of the regex class `\w`, i.e. `[A-Za-z0-9_]`,
as used by the source's `isWordChar = (char) => /\w/.test(char)`. -/
def isWordChar (c : Char) : Bool :=
  (65 ≤ c.toNat && c.toNat ≤ 90) || (97 ≤ c.toNat && c.toNat ≤ 122) ||
    (48 ≤ c.toNat && c.toNat ≤ 57) || (c.toNat == 95)

/-- JavaScript `String.prototype.toLowerCase`, modelled per character. -/
def lowerStr (s : List Char) : List Char := s.map Char.toLower

/-- Does `p` occur literally in `s` at position `i`? -/
def matchesAt (s p : List Char) (i : Nat) : Bool :=
  decide ((s.drop i).take p.length = p)

/-- Smallest `j` in the interval `[i, i + r)` with `P j = true`. -/
def findFrom (P : Nat → Bool) : Nat → Nat → Option Nat
  | _, 0 => none
  | i, r + 1 => if P i then some i else findFrom P (i + 1) r

/-- Largest `j ≤ i` with `P j = true`. -/
def findDownFrom (P : Nat → Bool) : Nat → Option Nat
  | 0 => if P 0 then some 0 else none
  | i + 1 => if P (i + 1) then some (i + 1) else findDownFrom P i

/-- JavaScript `s.indexOf(p, start)`: the start offset is clamped into
`[0, s.length]` and the smallest occurrence position at or after it is
returned (`none` models `-1`).  For `p = []` this returns the clamped start
offset, exactly as in JavaScript. -/
def indexOfFrom (s p : List Char) (start : Nat) : Option Nat :=
  let k := min start s.length
  findFrom (fun i => matchesAt s p i) k (s.length + 1 - k)

/-- JavaScript `s.lastIndexOf(p)`: the largest occurrence position, `none`
models `-1`. -/
def lastIndexOf (s p : List Char) : Option Nat :=
  findDownFrom (fun i => matchesAt s p i) s.length

/-- The whole-word neighbour test of `findInText` (`script.js` lines
1223-1229): the characters of `searchText` immediately before and after the
candidate match (buffer boundary counting as the non-word character `' '`)
must both be non-word. -/
def wwBoundaryOk (text pat : List Char) (cs : Bool) (i : Nat) : Bool :=
  let searchText := if cs then text else lowerStr text
  let searchFor := if cs then pat else lowerStr pat
  let before := if 0 < i then searchText.getD (i - 1) ' ' else ' '
  let after := if i + searchFor.length < searchText.length then
      searchText.getD (i + searchFor.length) ' ' else ' '
  !(isWordChar before || isWordChar after)

/-- Embedding of `findInText(text, searchTerm, startPos, caseSensitive,
wholeWord)` from `script.js` (lines 1217-1236), with an explicit fuel
parameter bounding the recursive whole-word rejection (the JS recursion
`findInText(text, searchTerm, index + 1, …)`); the rejection condition
`isWordChar(before) || isWordChar(after)` is `!wwBoundaryOk`. -/
def findInTextAux (text pat : List Char) (cs ww : Bool) : Nat → Nat → Option Nat
  | 0, _ => none
  | fuel + 1, startPos =>
    match indexOfFrom (if cs then text else lowerStr text)
        (if cs then pat else lowerStr pat) startPos with
    | none => none
    | some index =>
      if ww && !wwBoundaryOk text pat cs index then
        findInTextAux text pat cs ww fuel (index + 1)
      else some index

/-- The source's `findInText`, with fuel `text.length + 1`, which is proved
sufficient for non-empty patterns. -/
def findInText (text pat : List Char) (startPos : Nat) (cs ww : Bool) : Option Nat :=
  findInTextAux text pat cs ww (text.length + 1) startPos

/-- `findInText` for a possibly negative start offset: JavaScript `indexOf`
clamps a negative start to `0`, which is what `Int.toNat` does. -/
def findInTextI (text pat : List Char) (startPos : Int) (cs ww : Bool) : Option Nat :=
  findInText text pat startPos.toNat cs ww

/-- Case-normalised occurrence test used by every operation of the engine. -/
def occAt (text pat : List Char) (cs : Bool) (i : Nat) : Bool :=
  matchesAt (if cs then text else lowerStr text) (if cs then pat else lowerStr pat) i

/-- A position is accepted by `findInText` iff the pattern occurs there
(after case normalisation) and, in whole-word mode, the neighbour test
passes. -/
def acceptedAt (text pat : List Char) (cs ww : Bool) (i : Nat) : Bool :=
  occAt text pat cs i && (!ww || wwBoundaryOk text pat cs i)

/-- The whole-word neighbour test of `findInTextReverse` (`part_001`, lines
1605-1614): `before` is read from the truncated, case-normalised window
`searchText = substring(0, startPos)` while `after` is read from the full
original `text`. -/
def revBoundaryOk (text pat : List Char) (cs : Bool) (startPos i : Nat) : Bool :=
  let searchText := if cs then text.take startPos else lowerStr (text.take startPos)
  let searchFor := if cs then pat else lowerStr pat
  let before := if 0 < i then searchText.getD (i - 1) ' ' else ' '
  let after := if i + searchFor.length < text.length then
      text.getD (i + searchFor.length) ' ' else ' '
  !(isWordChar before || isWordChar after)

/-- Embedding of `findInTextReverse(text, searchTerm, startPos, caseSensitive,
wholeWord)` (`part_001`, lines 1599-1618): `lastIndexOf` on the window
`substring(0, startPos)`, with the recursive whole-word rejection
`findInTextReverse(text, searchTerm, index, …)` bounded by fuel. -/
def findInTextReverseAux (text pat : List Char) (cs ww : Bool) : Nat → Nat → Option Nat
  | 0, _ => none
  | fuel + 1, startPos =>
    match lastIndexOf (if cs then text.take startPos else lowerStr (text.take startPos))
        (if cs then pat else lowerStr pat) with
    | none => none
    | some index =>
      if ww && !revBoundaryOk text pat cs startPos index then
        findInTextReverseAux text pat cs ww fuel index
      else some index

/-- The source's `findInTextReverse`, with fuel `text.length + 1` (sufficient
for non-empty patterns). -/
def findInTextReverse (text pat : List Char) (startPos : Nat) (cs ww : Bool) : Option Nat :=
  findInTextReverseAux text pat cs ww (text.length + 1) startPos

/-- `findInTextReverse` for a possibly negative start offset (JavaScript
`substring` clamps a negative end offset to `0`). -/
def findInTextReverseI (text pat : List Char) (startPos : Int) (cs ww : Bool) : Option Nat :=
  findInTextReverse text pat startPos.toNat cs ww

/-- Whole-word acceptance at a position with both neighbours evaluated
against the full content (`before` from the case-normalised full text,
`after` from the original full text, exactly the characters the reverse
search consults).  This is the acceptance the specification describes for
`findBackward`. -/
def acceptedRevAt (text pat : List Char) (cs : Bool) (i : Nat) : Bool :=
  occAt text pat cs i &&
    !(isWordChar (if 0 < i then (if cs then text else lowerStr text).getD (i - 1) ' ' else ' ') ||
      isWordChar (if i + pat.length < text.length then text.getD (i + pat.length) ' ' else ' '))

/-- A regex word boundary `\b` between positions `j - 1` and `j` of `text`:
the two sides (out of bounds counting as the non-word `' '`) differ in
word-character status. -/
def wbBoundary (text : List Char) (j : Nat) : Bool :=
  (isWordChar (if 0 < j then text.getD (j - 1) ' ' else ' ')) != (isWordChar (text.getD j ' '))

/-- Acceptance of the literal-pattern regex `\b P \b` (flags `i` when case
insensitive) at position `i` of `text`: the case-normalised pattern occurs
there and both ends sit on a word boundary of the original text.  `searchFor`
is the already case-normalised pattern, as built by the source. -/
def regexWWAccept (text searchFor : List Char) (cs : Bool) (i : Nat) : Bool :=
  matchesAt (if cs then text else lowerStr text) searchFor i &&
    wbBoundary text i && wbBoundary text (i + searchFor.length)

/-- The `while ((pos = searchText.indexOf(searchFor, pos)) !== -1)` counting
loop of `countInText` (`script.js` lines 1440-1445), fuelled (it diverges in
JS for an empty pattern). -/
def countScanAux (s p : List Char) : Nat → Nat → Nat
  | 0, _ => 0
  | fuel + 1, pos =>
    match indexOfFrom s p pos with
    | none => 0
    | some i => countScanAux s p fuel (i + p.length) + 1

/-- Number of matches of the global regex `\b searchFor \b` on `text`
(`script.js` line 1437-1438): successive leftmost accepted occurrences, each
scan resuming at the previous match end. -/
def wwCountAux (text searchFor : List Char) (cs : Bool) : Nat → Nat → Nat
  | 0, _ => 0
  | fuel + 1, pos =>
    match findFrom (fun i => regexWWAccept text searchFor cs i) pos (text.length + 1 - pos) with
    | none => 0
    | some i => wwCountAux text searchFor cs fuel (i + searchFor.length) + 1

/-- Embedding of `countInText(text, searchTerm, caseSensitive, wholeWord)`
(`script.js` lines 1432-1448). -/
def countInText (text pat : List Char) (cs ww : Bool) : Nat :=
  if ww then wwCountAux text (if cs then pat else lowerStr pat) cs (text.length + 1) 0
  else countScanAux (if cs then text else lowerStr text) (if cs then pat else lowerStr pat)
    (text.length + 1) 0

/-- Match count of the escaped-literal global regex used by `replaceAll`
(`script.js` line 1485): successive leftmost occurrences of the pattern in
the original (not case-normalised) content, each scan resuming at match
end. -/
def regexGlobalCountAux (s p : List Char) : Nat → Nat → Nat
  | 0, _ => 0
  | fuel + 1, pos =>
    match indexOfFrom s p pos with
    | none => 0
    | some i => regexGlobalCountAux s p fuel (i + p.length) + 1

/-- `(originalContent.match(new RegExp(escaped(searchTerm), 'g')) || []).length`. -/
def regexGlobalCount (s p : List Char) : Nat := regexGlobalCountAux s p (s.length + 1) 0

/-- JavaScript `s.split(p)` for a non-empty literal separator: parts between
successive leftmost non-overlapping occurrences. -/
def splitOnAux (s p : List Char) : Nat → Nat → List (List Char)
  | 0, pos => [s.drop pos]
  | fuel + 1, pos =>
    match indexOfFrom s p pos with
    | none => [s.drop pos]
    | some i => (s.drop pos).take (i - pos) :: splitOnAux s p fuel (i + p.length)

/-- JavaScript `s.split(p)`. -/
def splitOn (s p : List Char) : List (List Char) := splitOnAux s p (s.length + 1) 0

/-- JavaScript `parts.join(sep)`. -/
def joinWith (sep : List Char) : List (List Char) → List Char
  | [] => []
  | [x] => x
  | x :: y :: rest => x ++ sep ++ joinWith sep (y :: rest)

/-- Outcome of `replaceAll`: the rewritten content and the reported count. -/
structure ReplaceAllOutcome where
  newContent : List Char
  replaced : Nat
deriving DecidableEq

/-- Embedding of `replaceAll()` (`script.js` lines 1476-1496): an empty
pattern returns early (no mutation, no report — modelled as `none`);
otherwise the content is `split(searchTerm).join(replaceTerm)` and the
reported count is the global case-sensitive regex match count.  Note the
source reads neither `caseSensitive` nor `wholeWord`. -/
def replaceAllOp (content pat repl : List Char) : Option ReplaceAllOutcome :=
  if pat = [] then none
  else some ⟨joinWith repl (splitOn content pat), regexGlobalCount content pat⟩

/-- Selection outcome of `findNext`: match position and whether the search
wrapped to the beginning. -/
structure FindOutcome where
  index : Nat
  wrapped : Bool
deriving DecidableEq

/-- Embedding of `findNext()` (`script.js` lines 1185-1215): empty search
term returns early; otherwise search from `selectionStart + 1`, retrying
once from offset `0` on failure. -/
def findNextOp (content pat : List Char) (selStart : Nat) (cs ww : Bool) : Option FindOutcome :=
  if pat = [] then none
  else
    match findInText content pat (selStart + 1) cs ww with
    | some i => some ⟨i, false⟩
    | none =>
      match findInText content pat 0 cs ww with
      | some i => some ⟨i, true⟩
      | none => none

/-- Embedding of `countOccurrences()` for the current buffer (`script.js`
lines 1410-1430): empty search term returns early without reporting. -/
def countOp (content pat : List Char) (cs ww : Bool) : Option Nat :=
  if pat = [] then none else some (countInText content pat cs ww)

/-- JavaScript `s.substring(a, b)`: clamps both offsets to `[0, s.length]`
and swaps them when out of order. -/
def jsSubstring (s : List Char) (a b : Nat) : List Char :=
  (s.take (max a b)).drop (min a b)

/-- Outcome of `replaceOne`: resulting content, number of replacements, and
the selection outcome of the `findNext()` call it falls through to. -/
structure ReplaceOneOutcome where
  newContent : List Char
  replaced : Nat
  next : Option FindOutcome
deriving DecidableEq

/-- Embedding of `replaceOne()` (`script.js` lines 1450-1474): the strictly
(`===`) case-sensitive comparison of the current selection with the search
term guards the replacement; `findNext()` runs in either case (after a
replacement the selection starts at `selStart`, so `findNext` scans from
`selStart + 1` in both branches). -/
def replaceOneOp (content pat repl : List Char) (selStart selEnd : Nat) (cs ww : Bool) :
    Option ReplaceOneOutcome :=
  if pat = [] then none
  else if jsSubstring content selStart selEnd = pat then
    let content2 := content.take selStart ++ repl ++ content.drop selEnd
    some ⟨content2, 1, findNextOp content2 pat selStart cs ww⟩
  else some ⟨content, 0, findNextOp content pat selStart cs ww⟩

/-- A buffer as seen by `searchInAllFiles`: identifier, display name and
content. -/
structure Tab where
  id : Nat
  name : List Char
  content : List Char
deriving DecidableEq

/-- JavaScript `content.split('\n')`. -/
def splitLines : List Char → List (List Char)
  | [] => [[]]
  | c :: rest =>
    match splitLines rest with
    | [] => [[c]]
    | l :: ls => if c = '\n' then [] :: l :: ls else (c :: l) :: ls

/-- JavaScript `s.includes(p)`. -/
def containsSub (s p : List Char) : Bool := (indexOfFrom s p 0).isSome

/-- `new RegExp('\\b' + escaped(searchFor) + '\\b', caseSensitive ? '' : 'i').test(line)`. -/
def wwRegexTest (line searchFor : List Char) (cs : Bool) : Bool :=
  (findFrom (fun i => regexWWAccept line searchFor cs i) 0 (line.length + 1)).isSome

/-- Does a line qualify in `searchInAllFiles` (`script.js` lines 1248-1261)? -/
def lineMatches (line pat : List Char) (cs ww : Bool) : Bool :=
  if ww then wwRegexTest line (if cs then pat else lowerStr pat) cs
  else containsSub (if cs then line else lowerStr line) (if cs then pat else lowerStr pat)

/-- One reported line of a matching buffer (`{ lineNum: index + 1, line }`). -/
structure LineMatch where
  lineNum : Nat
  lineText : List Char
deriving DecidableEq

/-- The `lines.forEach((line, index) => … matches.push({lineNum: index + 1,
line}))` accumulation of `searchInAllFiles`. -/
def collectMatches (pat : List Char) (cs ww : Bool) : Nat → List (List Char) → List LineMatch
  | _, [] => []
  | n, line :: rest =>
    if lineMatches line pat cs ww then
      ⟨n + 1, line⟩ :: collectMatches pat cs ww (n + 1) rest
    else collectMatches pat cs ww (n + 1) rest

/-- The matching lines of one buffer, with 1-based line numbers. -/
def bufferLineMatches (content pat : List Char) (cs ww : Bool) : List LineMatch :=
  collectMatches pat cs ww 0 (splitLines content)

/-- The per-buffer entry pushed onto `fileResults`. -/
structure BufferMatches where
  tabId : Nat
  matchLines : List LineMatch
deriving DecidableEq

/-- The aggregate of `searchInAllFiles`. -/
structure SearchAllResult where
  totalMatches : Nat
  files : List BufferMatches
deriving DecidableEq

/-- Embedding of the aggregation core of `searchInAllFiles(searchTerm,
caseSensitive, wholeWord)` (`script.js` lines 1238-1278): for each tab in
order, collect its matching lines; tabs with no matching line are skipped;
`totalMatches` accumulates `matches.length`. -/
def searchInAllFiles (tabs : List Tab) (pat : List Char) (cs ww : Bool) : SearchAllResult :=
  let files := tabs.filterMap fun t =>
    let ms := bufferLineMatches t.content pat cs ww
    if ms = [] then none else some ⟨t.id, ms⟩
  ⟨(files.map fun f => f.matchLines.length).sum, files⟩

/-- All positions of `text` accepted by `findInText` under the given
options, in increasing order. -/
def occList (text pat : List Char) (cs ww : Bool) : List Nat :=
  (List.range text.length).filter fun i => acceptedAt text pat cs ww i

/-- One step of the find-next navigation (`script.js` lines 1185-1215),
starting from the previous match position `i`: search from `i + 1`, wrapping
once to offset `0` on failure (when nothing is found at all the selection,
hence the position, is unchanged). -/
def findNextStep (text pat : List Char) (cs ww : Bool) (i : Nat) : Nat :=
  match findInText text pat (i + 1) cs ww with
  | some j => j
  | none =>
    match findInText text pat 0 cs ww with
    | some j => j
    | none => i

/-- Iterated find-next navigation from a starting match position. -/
def findNextIter (text pat : List Char) (cs ww : Bool) (start : Nat) : Nat → Nat
  | 0 => start
  | k + 1 => findNextStep text pat cs ww (findNextIter text pat cs ww start k)

/-- The iteration step the claim describes: resume the forward search from
the previous match's end offset (`i + pattern.length`) instead of
`i + 1`, wrapping once to offset `0` on failure. -/
def findNextStepFromEnd (text pat : List Char) (cs ww : Bool) (i : Nat) : Nat :=
  match findInText text pat (i + pat.length) cs ww with
  | some j => j
  | none =>
    match findInText text pat 0 cs ww with
    | some j => j
    | none => i

/- ### Characterisation of the generic scanners -/

theorem findFrom_zero {P : Nat → Bool} {i : Nat} : findFrom P i 0 = none := rfl

theorem findFrom_succ_pos {P : Nat → Bool} {i r : Nat} (h : P i = true) :
    findFrom P i (r + 1) = some i := by simp [findFrom, h]

theorem findFrom_succ_neg {P : Nat → Bool} {i r : Nat} (h : P i = false) :
    findFrom P i (r + 1) = findFrom P (i + 1) r := by simp [findFrom, h]

theorem findFrom_eq_some {P : Nat → Bool} {i r j : Nat} :
    findFrom P i r = some j ↔
      i ≤ j ∧ j < i + r ∧ P j = true ∧ ∀ m, i ≤ m → m < j → P m = false := by
  induction r generalizing i with
  | zero =>
    rw [findFrom_zero]
    constructor
    · intro hc; cases hc
    · rintro ⟨h1, h2, -⟩; omega
  | succ r ih =>
    cases h : P i
    · rw [findFrom_succ_neg h, ih]
      constructor
      · rintro ⟨h1, h2, hj, hmin⟩
        refine ⟨by omega, by omega, hj, fun m hm1 hm2 => ?_⟩
        rcases Nat.eq_or_lt_of_le hm1 with rfl | hlt
        · exact h
        · exact hmin m hlt hm2
      · rintro ⟨h1, h2, hj, hmin⟩
        have hij : i ≠ j := by rintro rfl; rw [h] at hj; cases hj
        exact ⟨by omega, by omega, hj, fun m hm1 hm2 => hmin m (by omega) hm2⟩
    · rw [findFrom_succ_pos h]
      constructor
      · rintro ⟨rfl⟩
        exact ⟨le_refl _, by omega, h, fun m h1 h2 => absurd h1 (by omega)⟩
      · rintro ⟨h1, -, hj, hmin⟩
        rcases Nat.eq_or_lt_of_le h1 with rfl | hlt
        · rfl
        · have := hmin i (le_refl _) hlt
          rw [h] at this; cases this

theorem findFrom_eq_none {P : Nat → Bool} {i r : Nat} :
    findFrom P i r = none ↔ ∀ j, i ≤ j → j < i + r → P j = false := by
  induction r generalizing i with
  | zero =>
    rw [findFrom_zero]
    constructor
    · intro _ j h1 h2; omega
    · intro _; rfl
  | succ r ih =>
    cases h : P i
    · rw [findFrom_succ_neg h, ih]
      constructor
      · intro hall j h1 h2
        rcases Nat.eq_or_lt_of_le h1 with rfl | hlt
        · exact h
        · exact hall j hlt (by omega)
      · intro hall j h1 h2
        exact hall j (by omega) (by omega)
    · rw [findFrom_succ_pos h]
      constructor
      · intro hc; cases hc
      · intro hall
        have := hall i (le_refl _) (by omega)
        rw [h] at this; cases this

theorem findDownFrom_succ_pos {P : Nat → Bool} {i : Nat} (h : P (i + 1) = true) :
    findDownFrom P (i + 1) = some (i + 1) := by simp [findDownFrom, h]

theorem findDownFrom_succ_neg {P : Nat → Bool} {i : Nat} (h : P (i + 1) = false) :
    findDownFrom P (i + 1) = findDownFrom P i := by simp [findDownFrom, h]

theorem findDownFrom_eq_some {P : Nat → Bool} {i j : Nat} :
    findDownFrom P i = some j ↔
      j ≤ i ∧ P j = true ∧ ∀ m, j < m → m ≤ i → P m = false := by
  induction i with
  | zero =>
    cases h : P 0
    · rw [show findDownFrom P 0 = none from by simp [findDownFrom, h]]
      constructor
      · intro hc; cases hc
      · rintro ⟨h1, hj, -⟩
        interval_cases j
        rw [h] at hj; cases hj
    · rw [show findDownFrom P 0 = some 0 from by simp [findDownFrom, h]]
      constructor
      · rintro ⟨rfl⟩; exact ⟨le_refl _, h, fun m h1 h2 => by omega⟩
      · rintro ⟨h1, hj, -⟩; interval_cases j; rfl
  | succ i ih =>
    cases h : P (i + 1)
    · rw [findDownFrom_succ_neg h, ih]
      constructor
      · rintro ⟨h1, hj, hmax⟩
        refine ⟨by omega, hj, fun m h2 h3 => ?_⟩
        rcases Nat.eq_or_lt_of_le h3 with rfl | hlt
        · exact h
        · exact hmax m h2 (by omega)
      · rintro ⟨h1, hj, hmax⟩
        have : j ≠ i + 1 := by rintro rfl; rw [h] at hj; cases hj
        exact ⟨by omega, hj, fun m h2 h3 => hmax m h2 (by omega)⟩
    · rw [findDownFrom_succ_pos h]
      constructor
      · rintro ⟨rfl⟩; exact ⟨le_refl _, h, fun m h1 h2 => by omega⟩
      · rintro ⟨h1, hj, hmax⟩
        rcases Nat.eq_or_lt_of_le h1 with rfl | hlt
        · rfl
        · have := hmax (i + 1) (by omega) (le_refl _)
          rw [h] at this; cases this

theorem findDownFrom_eq_none {P : Nat → Bool} {i : Nat} :
    findDownFrom P i = none ↔ ∀ j, j ≤ i → P j = false := by
  induction i with
  | zero =>
    cases h : P 0
    · rw [show findDownFrom P 0 = none from by simp [findDownFrom, h]]
      constructor
      · intro _ j hj; interval_cases j; exact h
      · intro _; rfl
    · rw [show findDownFrom P 0 = some 0 from by simp [findDownFrom, h]]
      constructor
      · intro hc; cases hc
      · intro hall
        have := hall 0 (le_refl _)
        rw [h] at this; cases this
  | succ i ih =>
    cases h : P (i + 1)
    · rw [findDownFrom_succ_neg h, ih]
      constructor
      · intro hall j hj
        rcases Nat.eq_or_lt_of_le hj with rfl | hlt
        · exact h
        · exact hall j (by omega)
      · intro hall j hj; exact hall j (by omega)
    · rw [findDownFrom_succ_pos h]
      constructor
      · intro hc; cases hc
      · intro hall
        have := hall (i + 1) (le_refl _)
        rw [h] at this; cases this

/- ### Basic facts about `matchesAt` -/

theorem matchesAt_le {s p : List Char} {i : Nat} (hp : p ≠ [])
    (h : matchesAt s p i = true) : i + p.length ≤ s.length := by
  have hd : (s.drop i).take p.length = p := by simpa [matchesAt] using h
  have hlen : min p.length (s.length - i) = p.length := by
    have := congrArg List.length hd
    simpa [List.length_take, List.length_drop] using this
  have hplen : 0 < p.length := List.length_pos.mpr hp
  have hi : i ≤ s.length := by
    by_contra hi
    push_neg at hi
    have hnil : s.drop i = [] := List.drop_eq_nil_of_le (by omega)
    rw [hnil, List.take_nil] at hd
    rw [← hd] at hplen
    simp at hplen
  omega

theorem lowerStr_length (s : List Char) : (lowerStr s).length = s.length := by
  simp [lowerStr]

theorem occAt_length {text pat : List Char} {cs : Bool} {i : Nat} (hp : pat ≠ [])
    (h : occAt text pat cs i = true) : i + pat.length ≤ text.length := by
  unfold occAt at h
  cases cs with
  | false =>
    have := matchesAt_le (s := lowerStr text) (p := lowerStr pat)
      (by simpa [lowerStr] using hp) (by simpa using h)
    simpa [lowerStr_length] using this
  | true => exact matchesAt_le hp (by simpa using h)

theorem acceptedAt_length {text pat : List Char} {cs ww : Bool} {i : Nat} (hp : pat ≠ [])
    (h : acceptedAt text pat cs ww i = true) : i + pat.length ≤ text.length := by
  have : occAt text pat cs i = true := by
    have := h
    unfold acceptedAt at this
    exact (Bool.and_eq_true_iff.mp this).1
  exact occAt_length hp this

theorem searchText_length (text : List Char) (cs : Bool) :
    (if cs then text else lowerStr text).length = text.length := by
  cases cs <;> simp [lowerStr]

theorem searchFor_ne {pat : List Char} (cs : Bool) (hp : pat ≠ []) :
    (if cs then pat else lowerStr pat) ≠ [] := by
  cases cs <;> simp [lowerStr, hp]

theorem searchFor_length (pat : List Char) (cs : Bool) :
    (if cs then pat else lowerStr pat).length = pat.length := by
  cases cs <;> simp [lowerStr]

theorem indexOfFrom_eq_some {s p : List Char} {start j : Nat} :
    indexOfFrom s p start = some j ↔
      min start s.length ≤ j ∧ j ≤ s.length ∧ matchesAt s p j = true ∧
        ∀ m, min start s.length ≤ m → m < j → matchesAt s p m = false := by
  unfold indexOfFrom
  rw [findFrom_eq_some]
  have hk : min start s.length ≤ s.length := Nat.min_le_right _ _
  constructor
  · rintro ⟨h1, h2, h3, h4⟩; exact ⟨h1, by omega, h3, h4⟩
  · rintro ⟨h1, h2, h3, h4⟩; exact ⟨h1, by omega, h3, h4⟩

theorem indexOfFrom_eq_none {s p : List Char} {start : Nat} :
    indexOfFrom s p start = none ↔
      ∀ m, min start s.length ≤ m → m ≤ s.length → matchesAt s p m = false := by
  unfold indexOfFrom
  rw [findFrom_eq_none]
  have hk : min start s.length ≤ s.length := Nat.min_le_right _ _
  constructor
  · intro h m h1 h2; exact h m h1 (by omega)
  · intro h m h1 h2; exact h m h1 (by omega)

theorem findFrom_shift {P : Nat → Bool} {a b n : Nat} (hab : a ≤ b) (hbn : b ≤ n)
    (hfalse : ∀ m, a ≤ m → m < b → P m = false) :
    findFrom P a (n - a) = findFrom P b (n - b) := by
  cases hb : findFrom P b (n - b) with
  | some j =>
    rw [findFrom_eq_some] at hb ⊢
    obtain ⟨h1, h2, h3, h4⟩ := hb
    refine ⟨by omega, by omega, h3, fun m hm1 hm2 => ?_⟩
    by_cases hm : m < b
    · exact hfalse m hm1 hm
    · exact h4 m (by omega) hm2
  | none =>
    rw [findFrom_eq_none] at hb ⊢
    intro j h1 h2
    by_cases hj : j < b
    · exact hfalse j h1 hj
    · exact hb j (by omega) (by omega)

theorem acceptedAt_of_occAt_false {text pat : List Char} {cs ww : Bool} {i : Nat}
    (h : occAt text pat cs i = false) : acceptedAt text pat cs ww i = false := by
  simp [acceptedAt, h]

/-- Central characterisation of the forward search: provided the pattern is
non-empty and the fuel covers the remaining text, `findInTextAux` computes
the smallest accepted position at or after the start offset. -/
theorem findInTextAux_char {text pat : List Char} {cs ww : Bool} (hp : pat ≠ []) :
    ∀ fuel start, text.length + 1 ≤ fuel + start →
      findInTextAux text pat cs ww fuel start =
        findFrom (fun i => acceptedAt text pat cs ww i) start (text.length + 1 - start) := by
  intro fuel
  induction fuel with
  | zero =>
    intro start h
    have h0 : text.length + 1 - start = 0 := by omega
    rw [h0, findFrom_zero]
    rfl
  | succ fuel ih =>
    intro start hstart
    have hSlen := searchText_length text cs
    have hFlen := searchFor_length pat cs
    have hFne := searchFor_ne cs hp
    cases hidx : indexOfFrom (if cs then text else lowerStr text)
        (if cs then pat else lowerStr pat) start with
    | none =>
      have hL : findInTextAux text pat cs ww (fuel + 1) start = none := by
        simp only [findInTextAux, hidx]
      rw [hL]
      symm
      rw [findFrom_eq_none]
      intro j h1 h2
      rw [indexOfFrom_eq_none] at hidx
      have hocc : occAt text pat cs j = false := by
        have := hidx j (by omega) (by omega)
        simpa [occAt] using this
      exact acceptedAt_of_occAt_false hocc
    | some index =>
      rw [indexOfFrom_eq_some] at hidx
      obtain ⟨hk, hjle, hmatch, hmin⟩ := hidx
      have hoccIdx : occAt text pat cs index = true := by simpa [occAt] using hmatch
      have hIdxLen : index + pat.length ≤ text.length := occAt_length hp hoccIdx
      have hplen : 0 < pat.length := List.length_pos.mpr hp
      have hstartle : start ≤ text.length := by
        by_contra hgt
        push_neg at hgt
        have : min start (if cs then text else lowerStr text).length =
            (if cs then text else lowerStr text).length := by omega
        rw [this] at hk
        omega
      have hkstart : min start (if cs then text else lowerStr text).length = start := by
        omega
      rw [hkstart] at hk hmin
      have hoccFalse : ∀ m, start ≤ m → m < index → occAt text pat cs m = false := by
        intro m h1 h2
        have := hmin m h1 h2
        simpa [occAt] using this
      cases hB : ww && !wwBoundaryOk text pat cs index with
      | false =>
        have hL : findInTextAux text pat cs ww (fuel + 1) start = some index := by
          simp only [findInTextAux]
          rw [show indexOfFrom (if cs then text else lowerStr text)
            (if cs then pat else lowerStr pat) start = some index from by
              rw [indexOfFrom_eq_some]
              exact ⟨by omega, hjle, hmatch, by
                intro m h1 h2
                rw [hkstart] at *
                exact hmin m h1 h2⟩]
          simp [hB]
        rw [hL]
        symm
        rw [findFrom_eq_some]
        have hacc : acceptedAt text pat cs ww index = true := by
          unfold acceptedAt
          rw [hoccIdx]
          cases ww with
          | false => simp
          | true =>
            simp only [Bool.true_and, Bool.not_true, Bool.false_or]
            simpa using hB
        exact ⟨hk, by omega, hacc, fun m h1 h2 =>
          acceptedAt_of_occAt_false (hoccFalse m h1 h2)⟩
      | true =>
        have hww : ww = true := by
          cases ww with
          | false => simp at hB
          | true => rfl
        have hBok : wwBoundaryOk text pat cs index = false := by
          cases hB2 : wwBoundaryOk text pat cs index with
          | false => rfl
          | true => rw [hww, hB2] at hB; simp at hB
        have hL : findInTextAux text pat cs ww (fuel + 1) start =
            findInTextAux text pat cs ww fuel (index + 1) := by
          simp only [findInTextAux]
          rw [show indexOfFrom (if cs then text else lowerStr text)
            (if cs then pat else lowerStr pat) start = some index from by
              rw [indexOfFrom_eq_some]
              exact ⟨by omega, hjle, hmatch, by
                intro m h1 h2
                rw [hkstart] at *
                exact hmin m h1 h2⟩]
          simp [hB]
        rw [hL, ih (index + 1) (by omega)]
        symm
        apply findFrom_shift (by omega) (by omega)
        intro m h1 h2
        by_cases hm : m < index
        · exact acceptedAt_of_occAt_false (hoccFalse m h1 hm)
        · have hmi : m = index := by omega
          subst hmi
          unfold acceptedAt
          rw [hww, hBok, hoccIdx]
          rfl

/-- The source's fuel choice is sufficient: `findInText` equals the
smallest-accepted-position characterisation for non-empty patterns. -/
theorem findInText_char {text pat : List Char} {cs ww : Bool} (hp : pat ≠ []) (start : Nat) :
    findInText text pat start cs ww =
      findFrom (fun i => acceptedAt text pat cs ww i) start (text.length + 1 - start) :=
  findInTextAux_char hp (text.length + 1) start (by omega)

/- ### C3: forward whole-word search returns the least accepted position -/

/-- C3: for every content, non-empty pattern and start offset, `findInText`
with `wholeWord = true` returns the smallest candidate index at or after the
clamped start offset whose neighbouring characters (out-of-bounds treated as
the non-word `' '`) are both non-word, candidates failing the test being
skipped by retrying from `candidateIndex + 1`; it returns `NOT_FOUND`
exactly when no such position exists. -/
theorem C3_findForward_wholeWord_least (text pat : List Char) (start : Int) (cs : Bool)
    (hp : pat ≠ []) :
    (∀ i, findInTextI text pat start cs true = some i ↔
        (start.toNat ≤ i ∧ acceptedAt text pat cs true i = true ∧
          ∀ j, j < i → start.toNat ≤ j → acceptedAt text pat cs true j = false))
    ∧ (findInTextI text pat start cs true = none ↔
        ∀ i, start.toNat ≤ i → acceptedAt text pat cs true i = false) := by
  unfold findInTextI
  rw [findInText_char hp]
  constructor
  · intro i
    rw [findFrom_eq_some]
    constructor
    · rintro ⟨h1, h2, h3, h4⟩
      exact ⟨h1, h3, fun j hj1 hj2 => h4 j hj2 hj1⟩
    · rintro ⟨h1, h2, h3⟩
      have hlen : i + pat.length ≤ text.length := acceptedAt_length hp h2
      have hplen : 0 < pat.length := List.length_pos.mpr hp
      exact ⟨h1, by omega, h2, fun m hm1 hm2 => h3 m hm2 hm1⟩
  · rw [findFrom_eq_none]
    constructor
    · intro h i hi
      by_cases hib : i < start.toNat + (text.length + 1 - start.toNat)
      · exact h i hi hib
      · cases hacc : acceptedAt text pat cs true i with
        | false => rfl
        | true =>
          have := acceptedAt_length hp hacc
          have hplen : 0 < pat.length := List.length_pos.mpr hp
          omega
    · intro h j hj1 _
      exact h j hj1

/-- C3 witness: `findForward("catalog cat", "cat", 0, {wholeWord: true})`
returns the standalone occurrence at offset 8. -/
theorem C3_findForward_wholeWord_least_witness :
    findInTextI (String.toList "catalog cat") (String.toList "cat") 0 false true = some 8 :=
  ((C3_findForward_wholeWord_least (String.toList "catalog cat") (String.toList "cat") 0 false
    (by decide)).1 8).mpr (by decide)

/- ### C4: empty pattern handling -/

/-- C4 counterexample: `findInText` with an empty pattern does not yield
`NOT_FOUND`; JavaScript `indexOf` returns the clamped start offset, here
position 0. -/
theorem C4_empty_pattern_cex :
    findInText (String.toList "abc") [] 0 true false = some 0 := by decide

/-- C4 (amended): all four operations reject an empty pattern before any
search — no buffer mutation, no reported count — but `findInText` itself,
invoked directly with an empty pattern, returns the clamped start offset
(the behaviour of JavaScript `indexOf`) rather than `NOT_FOUND`. -/
theorem C4_empty_pattern (content repl : List Char) (selStart selEnd : Nat)
    (cs ww : Bool) (start : Int) :
    findNextOp content [] selStart cs ww = none
    ∧ countOp content [] cs ww = none
    ∧ replaceOneOp content [] repl selStart selEnd cs ww = none
    ∧ replaceAllOp content [] repl = none
    ∧ findInTextI content [] start cs false = some (min start.toNat content.length) := by
  refine ⟨by simp [findNextOp], by simp [countOp], by simp [replaceOneOp],
    by simp [replaceAllOp], ?_⟩
  unfold findInTextI findInText
  have hS := searchText_length content cs
  have hFor : (if cs then ([] : List Char) else lowerStr []) = [] := by cases cs <;> rfl
  have hidx : indexOfFrom (if cs then content else lowerStr content) [] start.toNat
      = some (min start.toNat content.length) := by
    rw [indexOfFrom_eq_some]
    refine ⟨by rw [hS], by rw [hS]; exact Nat.min_le_right _ _, by simp [matchesAt], ?_⟩
    intro m h1 h2
    rw [hS] at h1
    omega
  simp only [findInTextAux, hFor, hidx]
  simp

/- ### C1: replaceAll count versus countInText -/

theorem regexGlobalCountAux_eq_countScanAux (s p : List Char) :
    ∀ fuel pos, regexGlobalCountAux s p fuel pos = countScanAux s p fuel pos := by
  intro fuel
  induction fuel with
  | zero => intro pos; rfl
  | succ fuel ih =>
    intro pos
    cases hidx : indexOfFrom s p pos with
    | none => simp only [regexGlobalCountAux, countScanAux, hidx]
    | some i =>
      simp only [regexGlobalCountAux, countScanAux, hidx]
      rw [ih]

/-- C1 counterexample: with `caseSensitive = false`, `countInText` counts
case-insensitively (one occurrence of `"a"` in `"A"`) while `replaceAll`
reports the case-sensitive count 0 — the two disagree for these options. -/
theorem C1_count_agreement_cex :
    countInText (String.toList "A") (String.toList "a") false false = 1
    ∧ replaceAllOp (String.toList "A") (String.toList "a") (String.toList "b")
        = some ⟨String.toList "A", 0⟩ := by decide

/-- C1 (amended): `replaceAll` reads neither option; for every non-empty
pattern its reported count equals `countInText` evaluated on the content
before replacement with `caseSensitive = true` and `wholeWord = false`
(and only those options — the counterexample shows other combinations can
disagree). -/
theorem C1_count_agreement (content pat repl : List Char) (hp : pat ≠ []) :
    replaceAllOp content pat repl
      = some ⟨joinWith repl (splitOn content pat), countInText content pat true false⟩ := by
  unfold replaceAllOp
  rw [if_neg hp]
  have hc : countInText content pat true false = regexGlobalCount content pat := by
    show countScanAux content pat (content.length + 1) 0 = regexGlobalCount content pat
    unfold regexGlobalCount
    rw [regexGlobalCountAux_eq_countScanAux]
  rw [hc]

/-- C1 witness: instantiation of the amended agreement at a concrete
buffer. -/
theorem C1_count_agreement_witness :
    replaceAllOp (String.toList "aba") (String.toList "a") (String.toList "x")
      = some ⟨joinWith (String.toList "x") (splitOn (String.toList "aba") (String.toList "a")),
          countInText (String.toList "aba") (String.toList "a") true false⟩ :=
  C1_count_agreement (String.toList "aba") (String.toList "a") (String.toList "x") (by decide)

/- ### C2: replaceAll ignores whole-word mode -/

/-- C2: evaluation at the failing input.  `replaceAll` takes no options at
all; on content `"catalog cat"`, pattern `"cat"`, replacement `"dog"` it
produces `"dogalog dog"` with count 2, replacing the occurrence embedded in
`"catalog"`, although only one whole-word occurrence exists (the whole-word
count is 1). -/
theorem C2_replaceAll_wholeWord_bug :
    replaceAllOp (String.toList "catalog cat") (String.toList "cat") (String.toList "dog")
      = some ⟨String.toList "dogalog dog", 2⟩
    ∧ countInText (String.toList "catalog cat") (String.toList "cat") false true = 1 := by
  decide

/- ### C6: replaceOne selection guard -/

/-- C6 counterexample: with `caseSensitive = false` the selection `"Foo"`
equals the pattern `"foo"` under the case rules (both lower-case to
`"foo"`), yet `replaceOne` performs no replacement: the content is
unchanged, zero replacements are reported, and the call falls through to
find-next (which wraps to offset 0). -/
theorem C6_replaceOne_guard_cex :
    lowerStr (String.toList "Foo") = lowerStr (String.toList "foo")
    ∧ replaceOneOp (String.toList "Foo") (String.toList "foo") (String.toList "bar") 0 3 false false
        = some ⟨String.toList "Foo", 0, some ⟨0, true⟩⟩ := by decide

/-- C6 (amended): `replaceOne`'s guard is the strict, always case-sensitive
equality of the current selection with the pattern, independent of the
`caseSensitive` option; when the selection matches strictly the selection is
replaced, and when it does not the content is left unchanged, the outcome is
zero replacements, no error is raised, and the call falls through to
find-next. -/
theorem C6_replaceOne_guard (content pat repl : List Char) (s e : Nat) (cs ww : Bool)
    (hp : pat ≠ []) :
    (jsSubstring content s e = pat →
      replaceOneOp content pat repl s e cs ww
        = some ⟨content.take s ++ repl ++ content.drop e, 1,
            findNextOp (content.take s ++ repl ++ content.drop e) pat s cs ww⟩)
    ∧ (jsSubstring content s e ≠ pat →
      replaceOneOp content pat repl s e cs ww
        = some ⟨content, 0, findNextOp content pat s cs ww⟩) := by
  constructor
  · intro hsel
    unfold replaceOneOp
    rw [if_neg hp, if_pos hsel]
  · intro hsel
    unfold replaceOneOp
    rw [if_neg hp, if_neg hsel]

/-- C6 witness: mismatching selection on a concrete buffer leaves the
content unchanged with zero replacements and falls through to find-next. -/
theorem C6_replaceOne_guard_witness :
    replaceOneOp (String.toList "abc") (String.toList "b") (String.toList "z") 0 1 true false
      = some ⟨String.toList "abc", 0, findNextOp (String.toList "abc") (String.toList "b") 0 true false⟩ :=
  (C6_replaceOne_guard (String.toList "abc") (String.toList "b") (String.toList "z") 0 1 true false
    (by decide)).2 (by decide)

/- ### C5: cross-buffer aggregation -/

theorem searchInAllFiles_files (tabs : List Tab) (pat : List Char) (cs ww : Bool) :
    (searchInAllFiles tabs pat cs ww).files
      = (tabs.filter fun t => !(bufferLineMatches t.content pat cs ww).isEmpty).map
          fun t => ⟨t.id, bufferLineMatches t.content pat cs ww⟩ := by
  unfold searchInAllFiles
  simp only
  induction tabs with
  | nil => rfl
  | cons t ts ih =>
    by_cases hms : bufferLineMatches t.content pat cs ww = []
    · simpa [List.filterMap_cons, List.filter_cons, hms] using ih
    · simpa [List.filterMap_cons, List.filter_cons, hms] using ih

theorem searchInAllFiles_total (tabs : List Tab) (pat : List Char) (cs ww : Bool) :
    (searchInAllFiles tabs pat cs ww).totalMatches
      = (tabs.map fun t => (bufferLineMatches t.content pat cs ww).length).sum := by
  unfold searchInAllFiles
  simp only
  induction tabs with
  | nil => rfl
  | cons t ts ih =>
    by_cases hms : bufferLineMatches t.content pat cs ww = []
    · simpa [List.filterMap_cons, hms] using ih
    · simpa [List.filterMap_cons, hms] using ih

theorem collectMatches_lineNum_gt (pat : List Char) (cs ww : Bool) :
    ∀ lines n m, m ∈ collectMatches pat cs ww n lines → n < m.lineNum := by
  intro lines
  induction lines with
  | nil => intro n m hm; simp [collectMatches] at hm
  | cons line rest ih =>
    intro n m hm
    by_cases hl : lineMatches line pat cs ww = true
    · rw [show collectMatches pat cs ww n (line :: rest)
          = ⟨n + 1, line⟩ :: collectMatches pat cs ww (n + 1) rest from by
        simp [collectMatches, hl]] at hm
      rcases List.mem_cons.mp hm with rfl | hm2
      · simp
      · have := ih (n + 1) m hm2
        omega
    · rw [show collectMatches pat cs ww n (line :: rest)
          = collectMatches pat cs ww (n + 1) rest from by
        simp [collectMatches, hl]] at hm
      have := ih (n + 1) m hm
      omega

theorem collectMatches_sorted (pat : List Char) (cs ww : Bool) :
    ∀ lines n, ((collectMatches pat cs ww n lines).map LineMatch.lineNum).Pairwise (· < ·) := by
  intro lines
  induction lines with
  | nil => intro n; simp [collectMatches]
  | cons line rest ih =>
    intro n
    by_cases hl : lineMatches line pat cs ww = true
    · rw [show collectMatches pat cs ww n (line :: rest)
          = ⟨n + 1, line⟩ :: collectMatches pat cs ww (n + 1) rest from by
        simp [collectMatches, hl]]
      rw [List.map_cons, List.pairwise_cons]
      constructor
      · intro a ha
        obtain ⟨m, hm, rfl⟩ := List.mem_map.mp ha
        have := collectMatches_lineNum_gt pat cs ww rest (n + 1) m hm
        simpa using this
      · exact ih (n + 1)
    · rw [show collectMatches pat cs ww n (line :: rest)
          = collectMatches pat cs ww (n + 1) rest from by
        simp [collectMatches, hl]]
      exact ih (n + 1)

theorem bufferLineMatches_nodup (content pat : List Char) (cs ww : Bool) :
    ((bufferLineMatches content pat cs ww).map LineMatch.lineNum).Nodup := by
  unfold bufferLineMatches
  exact (collectMatches_sorted pat cs ww (splitLines content) 0).imp (fun h => Nat.ne_of_lt h)

/-- C5: for every ordered list of buffers and non-empty pattern,
`searchInAllFiles` reports each matching line at most once (the line numbers
of every entry are distinct), keeps exactly the buffers with at least one
matching line (in order), and its `totalMatches` is the total number of
matching lines over all buffers; in particular, on the two demo buffers its
result is one entry for buffer 1 with lines 1 and 2, `totalMatches = 2` and
no entry for buffer 2. -/
theorem C5_searchAll_aggregation :
    (∀ (tabs : List Tab) (pat : List Char) (cs ww : Bool), pat ≠ [] →
      (searchInAllFiles tabs pat cs ww).totalMatches
          = (tabs.map fun t => (bufferLineMatches t.content pat cs ww).length).sum
        ∧ (searchInAllFiles tabs pat cs ww).files
            = (tabs.filter fun t => !(bufferLineMatches t.content pat cs ww).isEmpty).map
                (fun t => ⟨t.id, bufferLineMatches t.content pat cs ww⟩)
        ∧ ∀ b ∈ (searchInAllFiles tabs pat cs ww).files,
            b.matchLines ≠ [] ∧ (b.matchLines.map LineMatch.lineNum).Nodup)
    ∧ searchInAllFiles [⟨1, [], String.toList "foo\nbar foo"⟩, ⟨2, [], String.toList "baz"⟩]
        (String.toList "foo") false false
      = ⟨2, [⟨1, [⟨1, String.toList "foo"⟩, ⟨2, String.toList "bar foo"⟩]⟩]⟩ := by
  constructor
  · intro tabs pat cs ww _
    refine ⟨searchInAllFiles_total tabs pat cs ww, searchInAllFiles_files tabs pat cs ww, ?_⟩
    intro b hb
    rw [searchInAllFiles_files] at hb
    obtain ⟨t, ht, rfl⟩ := List.mem_map.mp hb
    have hne : bufferLineMatches t.content pat cs ww ≠ [] := by
      have := (List.mem_filter.mp ht).2
      simpa using this
    exact ⟨hne, bufferLineMatches_nodup t.content pat cs ww⟩
  · decide

/-- C5 witness: the general aggregation facts instantiated at the demo
buffers. -/
theorem C5_searchAll_aggregation_witness :
    (searchInAllFiles [⟨1, [], String.toList "foo\nbar foo"⟩, ⟨2, [], String.toList "baz"⟩]
        (String.toList "foo") false false).totalMatches
      = (([⟨1, [], String.toList "foo\nbar foo"⟩, ⟨2, [], String.toList "baz"⟩] : List Tab).map
          fun t => (bufferLineMatches t.content (String.toList "foo") false false).length).sum :=
  (C5_searchAll_aggregation.1 [⟨1, [], String.toList "foo\nbar foo"⟩, ⟨2, [], String.toList "baz"⟩]
    (String.toList "foo") false false (by decide)).1

/- ### C7: wrap-around iteration -/

theorem headD_eq_get {α : Type} (L : List α) (d : α) (h : 0 < L.length) :
    L.headD d = L.get ⟨0, h⟩ := by
  cases L with
  | nil => simp at h
  | cons a t => rfl

theorem occList_pairwise (text pat : List Char) (cs ww : Bool) :
    (occList text pat cs ww).Pairwise (· < ·) := by
  unfold occList
  exact List.Pairwise.sublist (List.filter_sublist _) (List.pairwise_lt_range _)

theorem mem_occList {text pat : List Char} {cs ww : Bool} {i : Nat} :
    i ∈ occList text pat cs ww ↔ i < text.length ∧ acceptedAt text pat cs ww i = true := by
  simp [occList, List.mem_filter, List.mem_range]

theorem accepted_mem_occList {text pat : List Char} {cs ww : Bool} {i : Nat} (hp : pat ≠ [])
    (h : acceptedAt text pat cs ww i = true) : i ∈ occList text pat cs ww := by
  have hlen := acceptedAt_length hp h
  have hplen : 0 < pat.length := List.length_pos.mpr hp
  exact mem_occList.mpr ⟨by omega, h⟩

theorem occList_get_lt {text pat : List Char} {cs ww : Bool}
    {r1 r2 : Fin (occList text pat cs ww).length} (h : r1.1 < r2.1) :
    (occList text pat cs ww).get r1 < (occList text pat cs ww).get r2 :=
  (List.pairwise_iff_get.mp (occList_pairwise text pat cs ww)) r1 r2 h

theorem findInText_at_get {text pat : List Char} {cs ww : Bool} (hp : pat ≠ [])
    {k : Nat} (hk1 : k + 1 < (occList text pat cs ww).length) :
    findInText text pat ((occList text pat cs ww).get ⟨k, by omega⟩ + 1) cs ww
      = some ((occList text pat cs ww).get ⟨k + 1, hk1⟩) := by
  have hplen : 0 < pat.length := List.length_pos.mpr hp
  rw [findInText_char hp, findFrom_eq_some]
  have hab : (occList text pat cs ww).get ⟨k, by omega⟩
      < (occList text pat cs ww).get ⟨k + 1, hk1⟩ := occList_get_lt (by simp)
  have hbacc : acceptedAt text pat cs ww ((occList text pat cs ww).get ⟨k + 1, hk1⟩) = true :=
    (mem_occList.mp (List.get_mem _ _ _)).2
  have hblen := acceptedAt_length hp hbacc
  refine ⟨by omega, by omega, hbacc, ?_⟩
  intro m hm1 hm2
  cases hacc : acceptedAt text pat cs ww m with
  | false => rfl
  | true =>
    exfalso
    obtain ⟨r, hr⟩ := List.mem_iff_get.mp (accepted_mem_occList hp hacc)
    by_cases hrk : r.1 ≤ k
    · have hle : (occList text pat cs ww).get r
          ≤ (occList text pat cs ww).get ⟨k, by omega⟩ := by
        rcases Nat.eq_or_lt_of_le hrk with heq | hlt
        · have : r = ⟨k, by omega⟩ := Fin.ext heq
          rw [this]
        · exact le_of_lt (occList_get_lt hlt)
      omega
    · have hge : (occList text pat cs ww).get ⟨k + 1, hk1⟩
          ≤ (occList text pat cs ww).get r := by
        rcases Nat.eq_or_lt_of_le (show k + 1 ≤ r.1 by omega) with heq | hlt
        · have : r = ⟨k + 1, hk1⟩ := Fin.ext heq.symm
          rw [this]
        · exact le_of_lt (occList_get_lt hlt)
      omega

theorem findInText_after_last {text pat : List Char} {cs ww : Bool} (hp : pat ≠ [])
    {k : Nat} (hk : k + 1 = (occList text pat cs ww).length) :
    findInText text pat ((occList text pat cs ww).get ⟨k, by omega⟩ + 1) cs ww = none := by
  rw [findInText_char hp, findFrom_eq_none]
  intro j h1 h2
  cases hacc : acceptedAt text pat cs ww j with
  | false => rfl
  | true =>
    exfalso
    obtain ⟨r, hr⟩ := List.mem_iff_get.mp (accepted_mem_occList hp hacc)
    have hrk : r.1 ≤ k := by omega
    have hle : (occList text pat cs ww).get r
        ≤ (occList text pat cs ww).get ⟨k, by omega⟩ := by
      rcases Nat.eq_or_lt_of_le hrk with heq | hlt
      · have : r = ⟨k, by omega⟩ := Fin.ext heq
        rw [this]
      · exact le_of_lt (occList_get_lt hlt)
    omega

theorem findInText_zero_head {text pat : List Char} {cs ww : Bool} (hp : pat ≠ [])
    (hne : occList text pat cs ww ≠ []) :
    findInText text pat 0 cs ww = some ((occList text pat cs ww).headD 0) := by
  have hlen : 0 < (occList text pat cs ww).length := List.length_pos.mpr hne
  have hplen : 0 < pat.length := List.length_pos.mpr hp
  have hhead : (occList text pat cs ww).headD 0 = (occList text pat cs ww).get ⟨0, hlen⟩ :=
    headD_eq_get (occList text pat cs ww) 0 hlen
  rw [findInText_char hp, findFrom_eq_some, hhead]
  have hacc : acceptedAt text pat cs ww ((occList text pat cs ww).get ⟨0, hlen⟩) = true :=
    (mem_occList.mp (List.get_mem _ _ _)).2
  have halen := acceptedAt_length hp hacc
  refine ⟨by omega, by omega, hacc, ?_⟩
  intro m _ hm2
  cases haccm : acceptedAt text pat cs ww m with
  | false => rfl
  | true =>
    exfalso
    obtain ⟨r, hr⟩ := List.mem_iff_get.mp (accepted_mem_occList hp haccm)
    have hge : (occList text pat cs ww).get ⟨0, hlen⟩ ≤ (occList text pat cs ww).get r := by
      rcases Nat.eq_zero_or_pos r.1 with heq | hlt
      · have : r = ⟨0, hlen⟩ := Fin.ext heq
        rw [this]
      · exact le_of_lt (occList_get_lt hlt)
    omega

/-- C7 (amended): starting from the first match and repeatedly stepping as
`findNext` does — forward search from the previous match's start offset plus
one, retrying once from offset 0 on `NOT_FOUND` — visits every accepted
occurrence exactly once, in order, before returning the first occurrence
again. -/
theorem C7_wrap_iteration (text pat : List Char) (cs ww : Bool) (hp : pat ≠ [])
    (hne : occList text pat cs ww ≠ []) :
    (∀ k (hk : k < (occList text pat cs ww).length),
        findNextIter text pat cs ww ((occList text pat cs ww).headD 0) k
          = (occList text pat cs ww).get ⟨k, hk⟩)
    ∧ findNextIter text pat cs ww ((occList text pat cs ww).headD 0)
        (occList text pat cs ww).length
      = (occList text pat cs ww).headD 0 := by
  have hlen : 0 < (occList text pat cs ww).length := List.length_pos.mpr hne
  have hfirst : ∀ k (hk : k < (occList text pat cs ww).length),
      findNextIter text pat cs ww ((occList text pat cs ww).headD 0) k
        = (occList text pat cs ww).get ⟨k, hk⟩ := by
    intro k
    induction k with
    | zero =>
      intro hk
      exact headD_eq_get (occList text pat cs ww) 0 hlen
    | succ k ih =>
      intro hk
      have hk' : k < (occList text pat cs ww).length := by omega
      show findNextStep text pat cs ww
        (findNextIter text pat cs ww ((occList text pat cs ww).headD 0) k) = _
      rw [ih hk']
      unfold findNextStep
      rw [findInText_at_get hp hk]
  refine ⟨hfirst, ?_⟩
  obtain ⟨k, hk⟩ : ∃ k, k + 1 = (occList text pat cs ww).length := ⟨_, Nat.succ_pred_eq_of_pos hlen⟩
  rw [← hk]
  show findNextStep text pat cs ww
    (findNextIter text pat cs ww ((occList text pat cs ww).headD 0) k) = _
  rw [hfirst k (by omega)]
  unfold findNextStep
  rw [findInText_after_last hp hk, findInText_zero_head hp hne]

/-- C7 counterexample: stepping from the previous match's *end* offset, as
the claim words it, does not visit every occurrence.  In `"aaa"` the pattern
`"aa"` occurs at 0 and 1; from the first match at 0 the end-offset step
finds nothing at offset 2 and wraps straight back to 0 — the first
occurrence repeats although occurrence 1 was never visited. -/
theorem C7_wrap_iteration_cex :
    occList (String.toList "aaa") (String.toList "aa") true false = [0, 1]
    ∧ findNextStepFromEnd (String.toList "aaa") (String.toList "aa") true false 0 = 0 := by
  decide

/-- C7 witness: on `"a a"` with pattern `"a"`, iterating the find-next step
over all occurrences returns to the first occurrence. -/
theorem C7_wrap_iteration_witness :
    findNextIter (String.toList "a a") (String.toList "a") true false
        ((occList (String.toList "a a") (String.toList "a") true false).headD 0)
        (occList (String.toList "a a") (String.toList "a") true false).length
      = (occList (String.toList "a a") (String.toList "a") true false).headD 0 :=
  (C7_wrap_iteration (String.toList "a a") (String.toList "a") true false
    (by decide) (by decide)).2

/- ### C8, C9: backward search and termination -/

theorem window_eq (text : List Char) (cs : Bool) (k : Nat) :
    (if cs then text.take k else lowerStr (text.take k))
      = (if cs then text else lowerStr text).take k := by
  cases cs <;> simp [lowerStr, List.map_take]

theorem getD_take {l : List Char} {j k : Nat} {d : Char} (h : j < k) :
    (l.take k).getD j d = l.getD j d := by
  rw [List.getD_eq_getD_get?, List.getD_eq_getD_get?, List.get?_take h]

theorem matchesAt_take_of_le {s p : List Char} {i k : Nat} (h : i + p.length ≤ k) :
    matchesAt (s.take k) p i = matchesAt s p i := by
  unfold matchesAt
  rw [List.drop_take, List.take_take, Nat.min_eq_left (by omega)]

theorem matchesAt_take_of_gt {s p : List Char} {i k : Nat} (hp : p ≠ [])
    (h : k < i + p.length) : matchesAt (s.take k) p i = false := by
  cases hm : matchesAt (s.take k) p i with
  | false => rfl
  | true =>
    have := matchesAt_le hp hm
    rw [List.length_take] at this
    omega

theorem findInTextReverse_false_eq (text pat : List Char) (cs : Bool) (k : Nat) :
    findInTextReverse text pat k cs false
      = lastIndexOf ((if cs then text else lowerStr text).take k)
          (if cs then pat else lowerStr pat) := by
  unfold findInTextReverse
  rw [show text.length + 1 = text.length + 1 from rfl]
  simp only [findInTextReverseAux, window_eq]
  cases hlast : lastIndexOf ((if cs then text else lowerStr text).take k)
      (if cs then pat else lowerStr pat) <;> simp [hlast]

theorem C8_findBackward_pieces (text pat : List Char) (k : Nat) (cs : Bool) (hp : pat ≠ []) :
    ∀ i, findInTextReverse text pat k cs false = some i ↔
        (occAt text pat cs i = true ∧ i + pat.length ≤ min k text.length ∧
          ∀ j, i < j → j + pat.length ≤ min k text.length → occAt text pat cs j = false) := by
  intro i
  have hN := searchText_length text cs
  have hF := searchFor_length pat cs
  have hFne := searchFor_ne cs hp
  have hW : ((if cs then text else lowerStr text).take k).length = min k text.length := by
    rw [List.length_take, hN]
  rw [findInTextReverse_false_eq]
  unfold lastIndexOf
  rw [findDownFrom_eq_some, hW]
  have hplen : 0 < pat.length := List.length_pos.mpr hp
  constructor
  · rintro ⟨h1, h2, h3⟩
    have h2' : matchesAt (if cs then text else lowerStr text) (if cs then pat else lowerStr pat) i
        = true ∧ i + pat.length ≤ min k text.length := by
      by_cases hc : i + pat.length ≤ k
      · rw [matchesAt_take_of_le (by omega)] at h2
        have := matchesAt_le hFne h2
        rw [hN, hF] at *
        exact ⟨h2, by omega⟩
      · rw [matchesAt_take_of_gt hFne (by omega)] at h2
        cases h2
    refine ⟨h2'.1, h2'.2, ?_⟩
    intro j hj1 hj2
    have hjW : j ≤ min k text.length := by omega
    have := h3 j hj1 hjW
    rw [matchesAt_take_of_le (by omega)] at this
    exact this
  · rintro ⟨h1, h2, h3⟩
    refine ⟨by omega, ?_, ?_⟩
    · rw [matchesAt_take_of_le (by omega)]
      exact h1
    · intro m hm1 hm2
      by_cases hc : m + pat.length ≤ min k text.length
      · rw [matchesAt_take_of_le (by omega)]
        exact h3 m hm1 hc
      · by_cases hck : m + pat.length ≤ k
        · rw [matchesAt_take_of_le (by omega)]
          cases hocc : matchesAt (if cs then text else lowerStr text)
              (if cs then pat else lowerStr pat) m with
          | false => rfl
          | true =>
            have := matchesAt_le hFne hocc
            rw [hN, hF] at this
            omega
        · rw [matchesAt_take_of_gt hFne (by omega)]

theorem C8_findBackward_none (text pat : List Char) (k : Nat) (cs : Bool) (hp : pat ≠ []) :
    findInTextReverse text pat k cs false = none ↔
      ∀ j, j + pat.length ≤ min k text.length → occAt text pat cs j = false := by
  have hN := searchText_length text cs
  have hF := searchFor_length pat cs
  have hFne := searchFor_ne cs hp
  have hW : ((if cs then text else lowerStr text).take k).length = min k text.length := by
    rw [List.length_take, hN]
  have hplen : 0 < pat.length := List.length_pos.mpr hp
  rw [findInTextReverse_false_eq]
  unfold lastIndexOf
  rw [findDownFrom_eq_none, hW]
  constructor
  · intro h j hj
    have := h j (by omega)
    rw [matchesAt_take_of_le (by omega)] at this
    exact this
  · intro h j hj
    by_cases hc : j + pat.length ≤ k
    · rw [matchesAt_take_of_le (by omega)]
      by_cases hcl : j + pat.length ≤ min k text.length
      · exact h j hcl
      · cases hocc : matchesAt (if cs then text else lowerStr text)
            (if cs then pat else lowerStr pat) j with
        | false => rfl
        | true =>
          have := matchesAt_le hFne hocc
          rw [hN, hF] at this
          omega
    · rw [matchesAt_take_of_gt hFne (by omega)]

theorem revBoundaryOk_eq_full {text pat : List Char} {cs : Bool} {startPos i : Nat}
    (hi : i ≤ min startPos text.length) :
    revBoundaryOk text pat cs startPos i
      = !(isWordChar (if 0 < i then (if cs then text else lowerStr text).getD (i - 1) ' ' else ' ') ||
          isWordChar (if i + pat.length < text.length then text.getD (i + pat.length) ' ' else ' ')) := by
  have hF := searchFor_length pat cs
  unfold revBoundaryOk
  simp only [window_eq, hF]
  congr 2
  by_cases h0 : 0 < i
  · simp only [h0, if_true]
    rw [getD_take (by omega)]
  · simp only [h0, if_false]

theorem revAux_sound {text pat : List Char} {cs : Bool} (hp : pat ≠ []) :
    ∀ fuel startPos i, findInTextReverseAux text pat cs true fuel startPos = some i →
      acceptedRevAt text pat cs i = true ∧ i + pat.length ≤ min startPos text.length := by
  have hN := searchText_length text cs
  have hF := searchFor_length pat cs
  have hFne := searchFor_ne cs hp
  have hplen : 0 < pat.length := List.length_pos.mpr hp
  intro fuel
  induction fuel with
  | zero => intro startPos i h; cases h
  | succ fuel ih =>
    intro startPos i h
    cases hlast : lastIndexOf ((if cs then text else lowerStr text).take startPos)
        (if cs then pat else lowerStr pat) with
    | none =>
      rw [show findInTextReverseAux text pat cs true (fuel + 1) startPos = none from by
        simp only [findInTextReverseAux, window_eq, hlast]] at h
      cases h
    | some index =>
      rw [show findInTextReverseAux text pat cs true (fuel + 1) startPos
          = (if true && !revBoundaryOk text pat cs startPos index then
              findInTextReverseAux text pat cs true fuel index
            else some index) from by
        simp only [findInTextReverseAux, window_eq, hlast]] at h
      unfold lastIndexOf at hlast
      rw [findDownFrom_eq_some] at hlast
      obtain ⟨hidx1, hidx2, -⟩ := hlast
      have hWlen : ((if cs then text else lowerStr text).take startPos).length
          = min startPos text.length := by rw [List.length_take, hN]
      have hwin : index + pat.length ≤ min startPos text.length := by
        have := matchesAt_le hFne hidx2
        rw [hWlen, hF] at this
        exact this
      have hocc : occAt text pat cs index = true := by
        have h2 := hidx2
        rw [matchesAt_take_of_le (by omega)] at h2
        exact h2
      cases hrb : revBoundaryOk text pat cs startPos index with
      | false =>
        rw [hrb] at h
        simp only [Bool.not_false, Bool.and_true, if_true] at h
        have := ih index i h
        refine ⟨this.1, by omega⟩
      | true =>
        rw [hrb] at h
        simp only [Bool.not_true, Bool.and_false, if_false] at h
        cases h
        refine ⟨?_, hwin⟩
        unfold acceptedRevAt
        rw [hocc]
        rw [revBoundaryOk_eq_full (by omega)] at hrb
        rw [hrb]
        rfl

/-- C8 (amended): without whole-word mode `findInTextReverse` returns the
occurrence of the pattern with the largest start offset whose match lies
entirely within `content[0, clamp(beforeOffset))`; with whole-word mode any
returned match lies within that window and satisfies the word-boundary rule
evaluated against the full original content (the `after` neighbour is read
from the full text, the `before` neighbour agrees with the full text), but
the shrink-on-reject retry may also skip accepted occurrences that overlap
a rejected candidate, so a result is not guaranteed. -/
theorem C8_findBackward (text pat : List Char) (beforeOff : Int) (cs : Bool) (hp : pat ≠ []) :
    (∀ i, findInTextReverseI text pat beforeOff cs false = some i ↔
        (occAt text pat cs i = true ∧ i + pat.length ≤ min beforeOff.toNat text.length ∧
          ∀ j, i < j → j + pat.length ≤ min beforeOff.toNat text.length →
            occAt text pat cs j = false))
    ∧ (findInTextReverseI text pat beforeOff cs false = none ↔
        ∀ j, j + pat.length ≤ min beforeOff.toNat text.length → occAt text pat cs j = false)
    ∧ (∀ i, findInTextReverseI text pat beforeOff cs true = some i →
        acceptedRevAt text pat cs i = true ∧ i + pat.length ≤ min beforeOff.toNat text.length) := by
  refine ⟨C8_findBackward_pieces text pat beforeOff.toNat cs hp, C8_findBackward_none text pat beforeOff.toNat cs hp, ?_⟩
  intro i h
  exact revAux_sound hp (text.length + 1) beforeOff.toNat i h

theorem revAux_congr {text pat : List Char} {cs ww : Bool} (hp : pat ≠ []) :
    ∀ f1 f2 startPos, min startPos text.length < f1 → min startPos text.length < f2 →
      findInTextReverseAux text pat cs ww f1 startPos
        = findInTextReverseAux text pat cs ww f2 startPos := by
  have hN := searchText_length text cs
  have hF := searchFor_length pat cs
  have hFne := searchFor_ne cs hp
  have hplen : 0 < pat.length := List.length_pos.mpr hp
  intro f1
  induction f1 with
  | zero => intro f2 startPos h1 h2; omega
  | succ f1 ih =>
    intro f2 startPos h1 h2
    cases f2 with
    | zero => omega
    | succ f2 =>
      cases hlast : lastIndexOf ((if cs then text else lowerStr text).take startPos)
          (if cs then pat else lowerStr pat) with
      | none =>
        rw [show findInTextReverseAux text pat cs ww (f1 + 1) startPos = none from by
          simp only [findInTextReverseAux, window_eq, hlast]]
        rw [show findInTextReverseAux text pat cs ww (f2 + 1) startPos = none from by
          simp only [findInTextReverseAux, window_eq, hlast]]
      | some index =>
        have hwin : index + pat.length ≤ min startPos text.length := by
          unfold lastIndexOf at hlast
          rw [findDownFrom_eq_some] at hlast
          have := matchesAt_le hFne hlast.2.1
          rw [List.length_take, hN, hF] at this
          exact this
        rw [show findInTextReverseAux text pat cs ww (f1 + 1) startPos
            = (if ww && !revBoundaryOk text pat cs startPos index then
                findInTextReverseAux text pat cs ww f1 index
              else some index) from by
          simp only [findInTextReverseAux, window_eq, hlast]]
        rw [show findInTextReverseAux text pat cs ww (f2 + 1) startPos
            = (if ww && !revBoundaryOk text pat cs startPos index then
                findInTextReverseAux text pat cs ww f2 index
              else some index) from by
          simp only [findInTextReverseAux, window_eq, hlast]]
        cases hc : ww && !revBoundaryOk text pat cs startPos index with
        | false => rfl
        | true =>
          simp only [if_true]
          exact ih f2 index (by omega) (by omega)

/-- C8 counterexample: with `wholeWord = true` the shrink-on-reject retry
skips an accepted occurrence overlapping the rejected candidate.  In
`"---b"` with pattern `"--"` and `beforeOffset = 4`, the candidate at 1 is
rejected (its `after` neighbour is the word character `'b'`), the retry
window `[0, 1)` cannot contain the pattern, and the search reports
`NOT_FOUND` — although the occurrence at 0 lies within the window and
passes the whole-word rule against the full content. -/
theorem C8_findBackward_cex :
    findInTextReverseI (String.toList "---b") (String.toList "--") 4 true true = none
    ∧ acceptedRevAt (String.toList "---b") (String.toList "--") true 0 = true
    ∧ 0 + (String.toList "--").length
        ≤ min (Int.toNat 4) (String.toList "---b").length := by decide

/-- C8 witness: backward search on `"catalog cat"` for `"cat"` before
offset 11 finds the occurrence at 8. -/
theorem C8_findBackward_witness :
    findInTextReverseI (String.toList "catalog cat") (String.toList "cat") 11 false false
      = some 8 :=
  ((C8_findBackward (String.toList "catalog cat") (String.toList "cat") 11 false
      (by decide)).1 8).mpr
    ⟨by decide, by decide, by intro j h1 h2; simp [String.toList] at h2; omega⟩

/-- C9: both recursive whole-word rejections make strict progress, so fuel
`content.length + 1` — one initial probe plus at most `content.length`
rejections — already computes the final answer: any fuel at least
`content.length + 1` gives the same result as the definitions used
throughout, for every start offset and option combination. -/
theorem C9_rejection_terminates (text pat : List Char) (cs ww : Bool) (start fuel : Nat)
    (hp : pat ≠ []) (hf : text.length + 1 ≤ fuel) :
    findInTextAux text pat cs ww fuel start = findInText text pat start cs ww
    ∧ findInTextReverseAux text pat cs ww fuel start = findInTextReverse text pat start cs ww := by
  constructor
  · rw [findInTextAux_char hp fuel start (by omega), findInText_char hp]
  · unfold findInTextReverse
    apply revAux_congr hp
    · have : min start text.length ≤ text.length := Nat.min_le_right _ _
      omega
    · have : min start text.length ≤ text.length := Nat.min_le_right _ _
      omega

/-- C9 witness: on a concrete buffer, surplus fuel does not change either
search result. -/
theorem C9_rejection_terminates_witness :
    findInTextAux (String.toList "ab") (String.toList "b") false true 7 0
        = findInText (String.toList "ab") (String.toList "b") 0 false true
    ∧ findInTextReverseAux (String.toList "ab") (String.toList "b") false true 7 2
        = findInTextReverse (String.toList "ab") (String.toList "b") 2 false true := by
  have h7 := C9_rejection_terminates (String.toList "ab") (String.toList "b") false true 0 7
    (by decide) (by decide)
  have h2 := C9_rejection_terminates (String.toList "ab") (String.toList "b") false true 2 7
    (by decide) (by decide)
  exact ⟨h7.1, h2.2⟩

/- ### C10: the two whole-word tests agree on word-delimited patterns -/

theorem toNat_ofNat_valid {n : Nat} (h : n.isValidChar) : (Char.ofNat n).toNat = n := by
  rw [Char.ofNat, dif_pos h]
  rfl

theorem toNat_toLower_of_upper {c : Char} (h : 65 ≤ c.toNat ∧ c.toNat ≤ 90) :
    (Char.toLower c).toNat = c.toNat + 32 := by
  rw [Char.toLower]
  simp only [ge_iff_le, h, and_true, if_pos, h.1, h.2]
  exact toNat_ofNat_valid (Or.inl (by omega))

theorem toLower_eq_self {c : Char} (h : ¬(65 ≤ c.toNat ∧ c.toNat ≤ 90)) :
    Char.toLower c = c := by
  rw [Char.toLower]
  simp only [ge_iff_le]
  rw [if_neg h]

theorem isWordChar_toLower (c : Char) : isWordChar (Char.toLower c) = isWordChar c := by
  by_cases h : 65 ≤ c.toNat ∧ c.toNat ≤ 90
  · have h1 := toNat_toLower_of_upper h
    have hL : isWordChar (Char.toLower c) = true := by
      simp only [isWordChar, h1, Bool.or_eq_true, Bool.and_eq_true, decide_eq_true_eq,
        beq_iff_eq]
      omega
    have hR : isWordChar c = true := by
      simp only [isWordChar, Bool.or_eq_true, Bool.and_eq_true, decide_eq_true_eq, beq_iff_eq]
      omega
    rw [hL, hR]
  · rw [toLower_eq_self h]

theorem isWordChar_norm_getD (l : List Char) (cs : Bool) (j : Nat) :
    isWordChar ((if cs then l else lowerStr l).getD j ' ')
      = isWordChar (l.getD j ' ') := by
  cases cs with
  | true => rfl
  | false =>
    simp only [Bool.false_eq_true, if_false]
    rw [List.getD_eq_getD_get?, List.getD_eq_getD_get?]
    unfold lowerStr
    rw [List.get?_map]
    cases h : l.get? j with
    | none => rfl
    | some c => simp [isWordChar_toLower]

theorem matchesAt_getD {s p : List Char} {i : Nat} (h : matchesAt s p i = true)
    {k : Nat} (hk : k < p.length) (d : Char) : s.getD (i + k) d = p.getD k d := by
  have hd : (s.drop i).take p.length = p := by simpa [matchesAt] using h
  rw [List.getD_eq_getD_get?, List.getD_eq_getD_get?]
  have hpk : p.get? k = ((s.drop i).take p.length).get? k := by rw [hd]
  rw [hpk, List.get?_take hk, List.get?_drop]

/-- C10: for every pattern whose first and last characters are word
characters, at every occurrence (under either case rule) the acceptance of
the word-boundary regex `\b pattern \b` used by `countInText` and
`searchInAllFiles` coincides with `findInText`'s neighbour check: the two
whole-word implementations qualify exactly the same occurrences. -/
theorem C10_wholeWord_equiv (text pat : List Char) (cs : Bool) (i : Nat)
    (hp : pat ≠ [])
    (hfirst : isWordChar (pat.getD 0 ' ') = true)
    (hlast : isWordChar (pat.getD (pat.length - 1) ' ') = true)
    (hocc : occAt text pat cs i = true) :
    regexWWAccept text (if cs then pat else lowerStr pat) cs i
      = acceptedAt text pat cs true i := by
  have hN := searchText_length text cs
  have hP := searchFor_length pat cs
  have hplen : 0 < pat.length := List.length_pos.mpr hp
  have hPlen0 : 0 < (if cs then pat else lowerStr pat).length := by rw [hP]; omega
  have hm : matchesAt (if cs then text else lowerStr text)
      (if cs then pat else lowerStr pat) i = true := hocc
  have hlen : i + pat.length ≤ text.length := occAt_length hp hocc
  have w_i : isWordChar (text.getD i ' ') = true := by
    rw [← isWordChar_norm_getD text cs i]
    have hgd := matchesAt_getD hm hPlen0 ' '
    rw [Nat.add_zero] at hgd
    rw [hgd, isWordChar_norm_getD pat cs 0]
    exact hfirst
  have w_l : isWordChar (text.getD (i + pat.length - 1) ' ') = true := by
    rw [← isWordChar_norm_getD text cs (i + pat.length - 1)]
    have hk : pat.length - 1 < (if cs then pat else lowerStr pat).length := by rw [hP]; omega
    have hgd := matchesAt_getD hm hk ' '
    have he : i + (pat.length - 1) = i + pat.length - 1 := by omega
    rw [he] at hgd
    rw [hgd, isWordChar_norm_getD pat cs (pat.length - 1)]
    exact hlast
  have hL : regexWWAccept text (if cs then pat else lowerStr pat) cs i
      = (!(isWordChar (if 0 < i then text.getD (i - 1) ' ' else ' '))
          && !(isWordChar (text.getD (i + pat.length) ' '))) := by
    unfold regexWWAccept wbBoundary
    rw [hm, hP, w_i, if_pos (show 0 < i + pat.length by omega), w_l]
    cases hx : isWordChar (if 0 < i then text.getD (i - 1) ' ' else ' ') <;>
      cases hy : isWordChar (text.getD (i + pat.length) ' ') <;> rfl
  have hR : acceptedAt text pat cs true i
      = !(isWordChar (if 0 < i then text.getD (i - 1) ' ' else ' ')
          || isWordChar (text.getD (i + pat.length) ' ')) := by
    unfold acceptedAt wwBoundaryOk
    rw [show occAt text pat cs i = true from hocc]
    simp only [Bool.not_true, Bool.false_or, Bool.true_and]
    congr 1
    congr 1
    · by_cases h0 : 0 < i
      · rw [if_pos h0, if_pos h0, isWordChar_norm_getD]
      · rw [if_neg h0, if_neg h0]
    · rw [hP, hN]
      by_cases hin : i + pat.length < text.length
      · rw [if_pos hin, isWordChar_norm_getD]
      · rw [if_neg hin]
        have hd : text.getD (i + pat.length) ' ' = ' ' := by
          rw [List.getD_eq_getD_get?]
          rw [List.get?_eq_none.mpr (by omega)]
          rfl
        rw [hd]
  rw [hL, hR]
  cases hx : isWordChar (if 0 < i then text.getD (i - 1) ' ' else ' ') <;>
    cases hy : isWordChar (text.getD (i + pat.length) ' ') <;> rfl

/-- C10 witness: at the occurrence of `"cat"` in `"a cat b"` both
whole-word tests agree (and both accept). -/
theorem C10_wholeWord_equiv_witness :
    regexWWAccept (String.toList "a cat b") (lowerStr (String.toList "cat")) false 2
      = acceptedAt (String.toList "a cat b") (String.toList "cat") false true 2 :=
  C10_wholeWord_equiv (String.toList "a cat b") (String.toList "cat") false 2
    (by decide) (by decide) (by decide) (by decide)
